import Mathlib

/-!
Shallow embedding of `Firestore/core/src/firebase/firestore/model/field_path.cc`
and `document_key.cc`.

Strings are modelled as `List Char`; a `FieldPath` is its list of segments.
`FIREBASE_ASSERT_MESSAGE` halts the program, so fallible operations are
embedded as `Except` / `Option`: a fatal precondition violation becomes an
`error` / `none` and no partial result is ever produced.
The external `ResourcePath` container (not part of this fragment) is modelled
from the spec as a list of segments with lexicographic ordering.
-/

namespace Firestore

/-- A field-path / resource-path segment, modelled as its list of bytes. -/
abbrev Segment := List Char

/-- A `FieldPath` is its ordered list of segments (`SegmentsT` in the source). -/
abbrev FieldPath := List Segment

/-- The NUL character that terminates the parser scan. -/
def nulChar : Char := Char.ofNat 0

/-- The reserved sentinel field name `kDocumentKeyPath = "__name__"`. -/
def kDocumentKeyPath : Segment := ['_', '_', 'n', 'a', 'm', 'e', '_', '_']

/-- Embeds `IsValidIdentifier`: nonempty, front is `_` or an ASCII letter,
every character is `_` or ASCII alphanumeric (`std::isalpha` / `std::isalnum`
on `unsigned char` in the C locale are the ASCII classes). -/
def IsValidIdentifier (segment : Segment) : Bool :=
  match segment with
  | [] => false
  | c :: _ =>
    (c == '_' || c.isAlpha) && segment.all (fun d => d == '_' || d.isAlphanum)

/-- Embeds `absl::StrReplaceAll` for a rule set whose patterns are all single
characters: at each position the first matching rule fires and the scan
resumes after the replaced character (single simultaneous pass). -/
def strReplaceAllChar (rules : List (Char × List Char)) : List Char → List Char
  | [] => []
  | c :: cs =>
    (match rules.find? (fun r => r.1 == c) with
     | some r => r.2
     | none => [c]) ++ strReplaceAllChar rules cs

/-- The replacement rule set of `EscapedSegment`:
`{{"\\", "\\\\"}, {"`", "\\`"}}`. -/
def escRules : List (Char × List Char) :=
  [('\\', ['\\', '\\']), ('`', ['\\', '`'])]

/-- Embeds `EscapedSegment`: substitute backslash and backtick, then wrap in
backticks when the substituted text is not a valid identifier. -/
def EscapedSegment (segment : Segment) : Segment :=
  let escaped := strReplaceAllChar escRules segment
  if IsValidIdentifier escaped then escaped
  else '`' :: (escaped ++ ['`'])

/-- Per-character block of the simultaneous substitution, in the spec's
language: backslash becomes two backslashes, backtick becomes
backslash-backtick, anything else is kept. -/
def escBlock (c : Char) : List Char :=
  if c = '\\' then ['\\', '\\']
  else if c = '`' then ['\\', '`']
  else [c]

/-- The substitution applied blockwise to the original characters. -/
def escBody : Segment → List Char
  | [] => []
  | c :: cs => escBlock c ++ escBody cs

/-- The three assert sites of `ParseServerFormat`, in source order. -/
inductive ParseErr where
  | emptySegment
  | unterminatedBacktick
  | trailingEscape
deriving DecidableEq, Repr

/-- End-of-scan handling of `ParseServerFormat`: `finish_segment()` (fails on
an empty pending segment), then the `!inside_backticks` assert, then the
`!escaped_character` assert. -/
def finishScan (insideBackticks escapedCharacter : Bool) (segment : Segment)
    (segments : FieldPath) : Except ParseErr FieldPath :=
  if segment = [] then .error .emptySegment
  else if insideBackticks then .error .unterminatedBacktick
  else if escapedCharacter then .error .trailingEscape
  else .ok (segments ++ [segment])

/-- The character loop of `ParseServerFormat`: NUL ends the scan, a pending
escape appends the character literally, `.` outside backticks closes the
current segment (failing if it is empty), backtick toggles the quoting state,
backslash arms the escape, anything else is appended. -/
def parseLoop : List Char → Bool → Bool → Segment → FieldPath →
    Except ParseErr FieldPath
  | [], insideBackticks, escapedCharacter, segment, segments =>
    finishScan insideBackticks escapedCharacter segment segments
  | c :: rest, insideBackticks, escapedCharacter, segment, segments =>
    if c = nulChar then
      finishScan insideBackticks escapedCharacter segment segments
    else match escapedCharacter with
    | true => parseLoop rest insideBackticks false (segment ++ [c]) segments
    | false =>
      if c = '.' then
        match insideBackticks with
        | true => parseLoop rest insideBackticks false (segment ++ [c]) segments
        | false =>
          if segment = [] then .error .emptySegment
          else parseLoop rest insideBackticks false [] (segments ++ [segment])
      else if c = '`' then
        parseLoop rest (!insideBackticks) false segment segments
      else if c = '\\' then
        parseLoop rest insideBackticks true segment segments
      else
        parseLoop rest insideBackticks false (segment ++ [c]) segments

/-- Embeds `FieldPath::ParseServerFormat`: scan from the initial state
(outside backticks, no pending escape, empty segment, no segments). -/
def ParseServerFormat (path : List Char) : Except ParseErr FieldPath :=
  parseLoop path false false [] []

/-- The failure conditions of the scan, stated in the spec's own terms: the
scan over the characters (stopping at NUL) yields whether some segment was
empty at the moment it was closed, the final inside-backticks state, and the
final pending-escape state; `curEmpty` tracks whether the current segment is
empty and `everEmpty` whether any closed segment was empty. -/
def specScan : List Char → Bool → Bool → Bool → Bool → Bool × Bool × Bool
  | [], insideBackticks, escapedCharacter, curEmpty, everEmpty =>
    (everEmpty || curEmpty, insideBackticks, escapedCharacter)
  | c :: rest, insideBackticks, escapedCharacter, curEmpty, everEmpty =>
    if c = nulChar then (everEmpty || curEmpty, insideBackticks, escapedCharacter)
    else match escapedCharacter with
    | true => specScan rest insideBackticks false false everEmpty
    | false =>
      if c = '.' then
        match insideBackticks with
        | true => specScan rest insideBackticks false false everEmpty
        | false => specScan rest insideBackticks false true (everEmpty || curEmpty)
      else if c = '`' then
        specScan rest (!insideBackticks) false curEmpty everEmpty
      else if c = '\\' then
        specScan rest insideBackticks true curEmpty everEmpty
      else
        specScan rest insideBackticks false false everEmpty

/-- Embeds `FieldPath::KeyFieldPath`. -/
def KeyFieldPath : FieldPath := [kDocumentKeyPath]

/-- Embeds `FieldPath::IsKeyFieldPath`: size 1 and front equals `__name__`. -/
def IsKeyFieldPath (fp : FieldPath) : Bool :=
  fp.length == 1 && fp.head? == some kDocumentKeyPath

/-- Embeds `FieldPath::CanonicalString`: the escaped segments joined by `.`. -/
def CanonicalString (fp : FieldPath) : List Char :=
  List.intercalate ['.'] (fp.map EscapedSegment)

/-- Modelled from the spec: the external `ResourcePath` container (its source
is not part of this fragment) is an ordered sequence of string segments. -/
abbrev ResourcePath := List Segment

/-- Generic lexicographic comparison over a boolean strict order on elements,
exactly the algorithm of `std::lexicographical_compare`. -/
def lexLt (lt : α → α → Bool) : List α → List α → Bool
  | [], [] => false
  | [], _ :: _ => true
  | _ :: _, [] => false
  | a :: as, b :: bs => if lt a b then true else if lt b a then false else lexLt lt as bs

/-- Bytewise comparison of two characters, as on `std::string` bytes. -/
def charLtB (a b : Char) : Bool := decide (a < b)

/-- Modelled from the spec: segments are compared bytewise, `std::string`'s
`operator<`. -/
def stringLt : Segment → Segment → Bool := lexLt charLtB

/-- Modelled from the spec: `ResourcePath`'s strict ordering is defined
lexicographically by segment. -/
def pathLt : ResourcePath → ResourcePath → Bool := lexLt stringLt

/-- Occurrence count of a character, top-down over the list. -/
def countCh (c : Char) : List Char → Nat
  | [] => 0
  | d :: ds => (if d = c then 1 else 0) + countCh c ds

/-- Embeds `DocumentKey`: `path_` is a `std::shared_ptr<ResourcePath>`, which
may be null after an ownership-transferring operation. -/
structure DocumentKey where
  pathPtr : Option ResourcePath
deriving DecidableEq, Repr

/-- Embeds `DocumentKey::IsDocumentKey`: the segment count is even. -/
def IsDocumentKey (path : ResourcePath) : Bool :=
  path.length % 2 == 0

/-- Embeds the validating constructors `DocumentKey(const ResourcePath&)` and
`DocumentKey(ResourcePath&&)`: `AssertValidPath` is a fatal precondition
violation, modelled as `none`; on success the path is stored. -/
def DocumentKey.fromPath (path : ResourcePath) : Option DocumentKey :=
  if IsDocumentKey path then some ⟨some path⟩ else none

/-- Embeds `DocumentKey::FromSegments`: build a path from exactly the given
segments, then validate it with the same constructor. -/
def DocumentKey.fromSegments (list : List Segment) : Option DocumentKey :=
  DocumentKey.fromPath list

/-- Embeds `DocumentKey::FromPathString` as a function of the external
`ResourcePath::FromString` parser's output: the parsed path goes through the
same validating constructor. -/
def DocumentKey.fromParsedPathString (parsed : ResourcePath) : Option DocumentKey :=
  DocumentKey.fromPath parsed

/-- Embeds `DocumentKey::Empty`: the default-constructed key, whose stored
path is the zero-segment path. -/
def DocumentKey.Empty : DocumentKey := ⟨some []⟩

/-- Embeds `DocumentKey::path`: the stored path when the storage reference is
set, otherwise `Empty().path()` — and the empty key's storage is always set,
so that call returns its stored zero-segment path. -/
def DocumentKey.path (k : DocumentKey) : ResourcePath :=
  match k.pathPtr with
  | some p => p
  | none => DocumentKey.Empty.pathPtr.getD []

/-- Embeds `operator==` on `DocumentKey`: `lhs.path() == rhs.path()`. -/
def keyEq (lhs rhs : DocumentKey) : Bool :=
  lhs.path == rhs.path

/-- Embeds `operator!=` on `DocumentKey`: `lhs.path() != rhs.path()`. -/
def keyNe (lhs rhs : DocumentKey) : Bool :=
  !(lhs.path == rhs.path)

/-- Embeds `operator<` on `DocumentKey`: `lhs.path() < rhs.path()`. -/
def keyLt (lhs rhs : DocumentKey) : Bool :=
  pathLt lhs.path rhs.path

/-- Embeds `operator<=` on `DocumentKey`: `lhs.path() <= rhs.path()`, where
the path's `<=` is the non-strict companion of its lexicographic `<`. -/
def keyLe (lhs rhs : DocumentKey) : Bool :=
  !(pathLt rhs.path lhs.path)

/-- Embeds `operator>` on `DocumentKey`: `lhs.path() > rhs.path()`. -/
def keyGt (lhs rhs : DocumentKey) : Bool :=
  pathLt rhs.path lhs.path

/-- Embeds `operator>=` on `DocumentKey`: `lhs.path() >= rhs.path()`. -/
def keyGe (lhs rhs : DocumentKey) : Bool :=
  !(pathLt lhs.path rhs.path)

end Firestore

namespace Firestore

/-- C8: `KeyFieldPath()` is the single-segment path `__name__`, and
`IsKeyFieldPath()` holds exactly on that path: `KeyFieldPath().IsKeyFieldPath()`
is true and every other path's check is false. -/
theorem keyFieldPath_sentinel :
    KeyFieldPath.length = 1 ∧ KeyFieldPath.head? = some kDocumentKeyPath ∧
    IsKeyFieldPath KeyFieldPath = true ∧
    ∀ fp : FieldPath, IsKeyFieldPath fp = true ↔ fp = KeyFieldPath := by
  refine ⟨rfl, rfl, by decide, ?_⟩
  intro fp
  constructor
  · intro h
    match fp with
    | [] => simp [IsKeyFieldPath] at h
    | [s] =>
      simp [IsKeyFieldPath] at h
      simp [KeyFieldPath, h]
    | s :: t :: r => simp [IsKeyFieldPath] at h
  · intro h
    subst h
    decide

/-- C8 witness: the sentinel characterization applied to a concrete
two-segment path, whose check is false. -/
theorem keyFieldPath_sentinel_witness :
    IsKeyFieldPath [['a'], ['b']] = true ↔ [['a'], ['b']] = KeyFieldPath :=
  keyFieldPath_sentinel.2.2.2 [['a'], ['b']]

/-- C6: `IsDocumentKey` holds exactly on even segment counts; every
constructing path (validating constructor, `FromSegments`, and the validation
applied to `FromPathString`'s parsed path) succeeds exactly on even counts and
is a fatal precondition violation (no error value, modelled `none`) on odd
counts; a 2-segment path constructs, 1- and 3-segment paths fail fast. -/
theorem documentKey_validity :
    (∀ p : ResourcePath, IsDocumentKey p = true ↔ p.length % 2 = 0) ∧
    (∀ p : ResourcePath, (DocumentKey.fromPath p).isSome = true ↔ p.length % 2 = 0) ∧
    (∀ p : ResourcePath, DocumentKey.fromParsedPathString p = DocumentKey.fromPath p) ∧
    (∀ l : List Segment, DocumentKey.fromSegments l = DocumentKey.fromPath l) ∧
    DocumentKey.fromPath ["collection".data, "doc".data] =
      some ⟨some ["collection".data, "doc".data]⟩ ∧
    DocumentKey.fromPath ["collection".data] = none ∧
    DocumentKey.fromPath ["collection".data, "doc".data, "sub".data] = none := by
  refine ⟨?_, ?_, fun p => rfl, fun l => rfl, by decide, by decide, by decide⟩
  · intro p
    simp [IsDocumentKey]
  · intro p
    simp only [DocumentKey.fromPath, IsDocumentKey]
    split <;> rename_i h <;> simp_all

/-- C6 witness: the success criterion applied to a concrete 2-segment path. -/
theorem documentKey_validity_witness :
    (DocumentKey.fromPath [['a'], ['b']]).isSome = true :=
  (documentKey_validity.2.1 [['a'], ['b']]).mpr (by decide)

/-- C9: the `path()` accessor returns the stored path when the internal
storage reference is set, and the empty key's (zero-segment) path when it is
unset; it is a total function, so it never fails. -/
theorem path_accessor_fallback :
    (∀ k : DocumentKey, ∀ p, k.pathPtr = some p → k.path = p) ∧
    (∀ k : DocumentKey, k.pathPtr = none → k.path = DocumentKey.Empty.path) := by
  constructor
  · intro k p h
    simp [DocumentKey.path, h]
  · intro k h
    simp [DocumentKey.path, h, DocumentKey.Empty]

/-- C9 witness: the fallback applied to a key whose storage reference is
unset. -/
theorem path_accessor_fallback_witness :
    DocumentKey.path ⟨none⟩ = DocumentKey.Empty.path :=
  path_accessor_fallback.2 ⟨none⟩ rfl

/-- Lexicographic `lexLt` is irreflexive when the element order is. -/
theorem lexLt_irrefl (lt : α → α → Bool) (hirr : ∀ a, lt a a = false) :
    ∀ p : List α, lexLt lt p p = false
  | [] => rfl
  | a :: as => by
    simp only [lexLt, hirr a, if_false]
    exact lexLt_irrefl lt hirr as

/-- Lexicographic `lexLt` is transitive when the element order is a strict total order
(transitive and incomparability means equality). -/
theorem lexLt_trans (lt : α → α → Bool)
    (hirr : ∀ a, lt a a = false)
    (htr : ∀ a b c, lt a b = true → lt b c = true → lt a c = true)
    (hconn : ∀ a b, lt a b = false → lt b a = false → a = b) :
    ∀ p q r : List α, lexLt lt p q = true → lexLt lt q r = true → lexLt lt p r = true
  | [], _ :: _, _ :: _, _, _ => rfl
  | a :: as, b :: bs, c :: cs, h1, h2 => by
    simp only [lexLt] at h1 h2 ⊢
    cases hab : lt a b with
    | true =>
      cases hbc : lt b c with
      | true => simp [htr a b c hab hbc]
      | false =>
        cases hcb : lt c b with
        | true => simp [hbc, hcb] at h2
        | false =>
          have hbceq := hconn b c hbc hcb
          subst hbceq
          simp [hab]
    | false =>
      cases hba : lt b a with
      | true => simp [hab, hba] at h1
      | false =>
        have habeq := hconn a b hab hba
        subst habeq
        simp only [hab, hba, Bool.false_eq_true, if_false] at h1
        cases hac : lt a c with
        | true => simp
        | false =>
          cases hca : lt c a with
          | true => simp [hac, hca] at h2
          | false =>
            simp only [hac, hca, Bool.false_eq_true, if_false] at h2 ⊢
            exact lexLt_trans lt hirr htr hconn as bs cs h1 h2

/-- Lexicographic `lexLt` is trichotomous when the element order is. -/
theorem lexLt_trichotomy (lt : α → α → Bool)
    (hconn : ∀ a b, lt a b = false → lt b a = false → a = b) :
    ∀ p q : List α, lexLt lt p q = true ∨ p = q ∨ lexLt lt q p = true
  | [], [] => Or.inr (Or.inl rfl)
  | [], _ :: _ => Or.inl rfl
  | _ :: _, [] => Or.inr (Or.inr rfl)
  | a :: as, b :: bs => by
    by_cases hab : lt a b = true
    · exact Or.inl (by simp [lexLt, hab])
    · by_cases hba : lt b a = true
      · exact Or.inr (Or.inr (by simp [lexLt, hba]))
      · have habeq := hconn a b (by simp [hab]) (by simp [hba])
        subst habeq
        rcases lexLt_trichotomy lt hconn as bs with h | h | h
        · exact Or.inl (by simp [lexLt, hab, h])
        · exact Or.inr (Or.inl (by rw [h]))
        · exact Or.inr (Or.inr (by simp [lexLt, hab, h]))

/-- Lexicographic `lexLt` is asymmetric when the element order is. -/
theorem lexLt_asymm (lt : α → α → Bool)
    (hasym : ∀ a b, lt a b = true → lt b a = false) :
    ∀ p q : List α, lexLt lt p q = true → lexLt lt q p = false
  | [], [], h => by simp [lexLt] at h
  | [], _ :: _, _ => rfl
  | _ :: _, [], h => by simp [lexLt] at h
  | a :: as, b :: bs, h => by
    simp only [lexLt] at h ⊢
    cases hab : lt a b with
    | true => simp [hasym a b hab, hab]
    | false =>
      cases hba : lt b a with
      | true => simp [hab, hba] at h
      | false =>
        simp only [hab, hba, Bool.false_eq_true, if_false] at h ⊢
        exact lexLt_asymm lt hasym as bs h

/-- Characters are totally ordered bytewise. -/
theorem charLtB_conn (a b : Char) (h1 : charLtB a b = false) (h2 : charLtB b a = false) :
    a = b := by
  simp only [charLtB, decide_eq_false_iff_not] at h1 h2
  exact le_antisymm (le_of_not_lt h2) (le_of_not_lt h1)

/-- Segment comparison is incomparability-connected. -/
theorem stringLt_conn (s t : Segment) (h1 : stringLt s t = false) (h2 : stringLt t s = false) :
    s = t :=
  lexLt_trichotomy charLtB charLtB_conn s t |>.elim
    (fun h => absurd h (by simp [stringLt] at h1; simp [h1]))
    (fun h => h.elim id (fun h => absurd h (by simp [stringLt] at h2; simp [h2])))

/-- Segment comparison is irreflexive. -/
theorem stringLt_irrefl (s : Segment) : stringLt s s = false :=
  lexLt_irrefl charLtB (fun a => by simp [charLtB]) s

/-- Segment comparison is transitive. -/
theorem stringLt_trans (s t u : Segment) (h1 : stringLt s t = true)
    (h2 : stringLt t u = true) : stringLt s u = true :=
  lexLt_trans charLtB (fun a => by simp [charLtB])
    (fun a b c hab hbc => by
      simp only [charLtB, decide_eq_true_eq] at hab hbc ⊢
      exact lt_trans hab hbc)
    charLtB_conn s t u h1 h2

/-- Segment comparison is asymmetric. -/
theorem stringLt_asymm (s t : Segment) (h : stringLt s t = true) : stringLt t s = false :=
  lexLt_asymm charLtB
    (fun a b hab => by
      simp only [charLtB, decide_eq_true_eq, decide_eq_false_iff_not] at hab ⊢
      exact asymm hab)
    s t h

/-- C7: every comparison operator on `DocumentKey` returns exactly the
corresponding operator on the underlying paths, and the resulting comparison
is a strict total order (irreflexive, transitive, trichotomous, asymmetric);
the keys for `a/1`, `a/2`, `b/1` are strictly increasing. -/
theorem documentKey_ordering :
    (∀ k l : DocumentKey, keyEq k l = (k.path == l.path) ∧
      keyNe k l = !(k.path == l.path) ∧
      keyLt k l = pathLt k.path l.path ∧
      keyLe k l = !(pathLt l.path k.path) ∧
      keyGt k l = pathLt l.path k.path ∧
      keyGe k l = !(pathLt k.path l.path)) ∧
    (∀ k : DocumentKey, keyLt k k = false) ∧
    (∀ k l m : DocumentKey, keyLt k l = true → keyLt l m = true → keyLt k m = true) ∧
    (∀ k l : DocumentKey, keyLt k l = true ∨ keyEq k l = true ∨ keyLt l k = true) ∧
    (∀ k l : DocumentKey, keyLt k l = true → keyEq k l = false ∧ keyLt l k = false) ∧
    keyLt ⟨some [['a'], ['1']]⟩ ⟨some [['a'], ['2']]⟩ = true ∧
    keyLt ⟨some [['a'], ['2']]⟩ ⟨some [['b'], ['1']]⟩ = true := by
  refine ⟨fun k l => ⟨rfl, rfl, rfl, rfl, rfl, rfl⟩, ?_, ?_, ?_, ?_, by decide, by decide⟩
  · intro k
    exact lexLt_irrefl stringLt stringLt_irrefl k.path
  · intro k l m
    exact lexLt_trans stringLt stringLt_irrefl stringLt_trans stringLt_conn
      k.path l.path m.path
  · intro k l
    rcases lexLt_trichotomy stringLt stringLt_conn k.path l.path with h | h | h
    · exact Or.inl h
    · refine Or.inr (Or.inl ?_)
      simp [keyEq, h]
    · exact Or.inr (Or.inr h)
  · intro k l h
    have hasym := lexLt_asymm stringLt stringLt_asymm k.path l.path h
    refine ⟨?_, hasym⟩
    simp only [keyEq, beq_eq_false_iff_ne, ne_eq]
    intro he
    simp only [keyLt, pathLt] at h
    rw [he, lexLt_irrefl stringLt stringLt_irrefl l.path] at h
    exact absurd h (by simp)

/-- C7 witness: transitivity applied to the concrete keys for `a/1`, `a/2`
and `b/1`. -/
theorem documentKey_ordering_witness :
    keyLt ⟨some [['a'], ['1']]⟩ ⟨some [['b'], ['1']]⟩ = true :=
  documentKey_ordering.2.2.1 ⟨some [['a'], ['1']]⟩ ⟨some [['a'], ['2']]⟩
    ⟨some [['b'], ['1']]⟩ (by decide) (by decide)

/-- The `StrReplaceAll` pass over the two single-character rules is exactly
the blockwise substitution over the original characters. -/
theorem strReplaceAllChar_eq_escBody (s : Segment) :
    strReplaceAllChar escRules s = escBody s := by
  induction s with
  | nil => rfl
  | cons c cs ih =>
    simp only [escRules] at ih
    by_cases h1 : c = '\\'
    · subst h1
      simp only [strReplaceAllChar, escRules, List.find?, escBody, escBlock, if_pos rfl]
      simp [ih]
    · by_cases h2 : c = '`'
      · subst h2
        simp only [strReplaceAllChar, escRules, List.find?, escBody, escBlock]
        simp [ih]
      · have e1 : ('\\' == c) = false := beq_eq_false_iff_ne.mpr (Ne.symm h1)
        have e2 : ('`' == c) = false := beq_eq_false_iff_ne.mpr (Ne.symm h2)
        simp only [strReplaceAllChar, escRules, List.find?, e1, e2, escBody, escBlock,
          if_neg h1, if_neg h2]
        simp [ih]

/-- Character counting distributes over concatenation. -/
theorem countCh_append (c : Char) : ∀ l1 l2 : List Char,
    countCh c (l1 ++ l2) = countCh c l1 + countCh c l2
  | [], l2 => by simp [countCh]
  | d :: ds, l2 => by
    show countCh c (d :: (ds ++ l2)) = _
    rw [countCh, countCh, countCh_append c ds l2]
    omega

/-- Backslash count after substitution: each original backslash contributes
two, each original backtick contributes its one escaping backslash, and no
introduced backslash is ever re-escaped. -/
theorem escBody_count_backslash (s : Segment) :
    countCh '\\' (escBody s) = 2 * countCh '\\' s + countCh '`' s := by
  induction s with
  | nil => rfl
  | cons c cs ih =>
    rw [show escBody (c :: cs) = escBlock c ++ escBody cs from rfl, countCh_append, ih]
    by_cases h1 : c = '\\'
    · subst h1
      simp only [escBlock, if_pos rfl, countCh]
      simp
      omega
    · by_cases h2 : c = '`'
      · subst h2
        simp [escBlock, countCh]
        omega
      · simp [escBlock, countCh, h1, h2]

/-- Backtick count is preserved by the substitution (each original backtick
stays, preceded by its escaping backslash). -/
theorem escBody_count_backtick (s : Segment) :
    countCh '`' (escBody s) = countCh '`' s := by
  induction s with
  | nil => rfl
  | cons c cs ih =>
    rw [show escBody (c :: cs) = escBlock c ++ escBody cs from rfl, countCh_append, ih]
    by_cases h1 : c = '\\'
    · subst h1
      simp [escBlock, countCh]
    · by_cases h2 : c = '`'
      · subst h2
        simp [escBlock, countCh]
      · simp [escBlock, countCh, h1, h2]

/-- C3: `EscapedSegment` performs one simultaneous substitution over the
original characters (backslash to double backslash, backtick to
backslash-backtick, with introduced backslashes never re-escaped, as the
backslash count shows) and wraps the substituted text in backticks exactly
when it is not a valid identifier. -/
theorem escapedSegment_spec (s : Segment) :
    strReplaceAllChar escRules s = escBody s ∧
    countCh '\\' (escBody s) = 2 * countCh '\\' s + countCh '`' s ∧
    countCh '`' (escBody s) = countCh '`' s ∧
    EscapedSegment s =
      (if IsValidIdentifier (escBody s) then escBody s
       else '`' :: (escBody s ++ ['`'])) := by
  refine ⟨strReplaceAllChar_eq_escBody s, escBody_count_backslash s,
    escBody_count_backtick s, ?_⟩
  simp only [EscapedSegment, strReplaceAllChar_eq_escBody s]

end Firestore

namespace Firestore

/-- A NUL character ends the scan at once: the end-of-scan handling runs. -/
theorem parseLoop_cons_nul (rest : List Char) (ib esc : Bool) (seg : Segment)
    (acc : FieldPath) :
    parseLoop (nulChar :: rest) ib esc seg acc = finishScan ib esc seg acc := by
  simp [parseLoop]

/-- A pending escape appends the character literally, for any state. -/
theorem parseLoop_cons_escaped {c : Char} (h : c ≠ nulChar) (rest : List Char)
    (ib : Bool) (seg : Segment) (acc : FieldPath) :
    parseLoop (c :: rest) ib true seg acc = parseLoop rest ib false (seg ++ [c]) acc := by
  simp only [parseLoop, if_neg h]

/-- A dot inside backticks is appended literally. -/
theorem parseLoop_cons_dot_inside (rest : List Char) (seg : Segment) (acc : FieldPath) :
    parseLoop ('.' :: rest) true false seg acc =
      parseLoop rest true false (seg ++ ['.']) acc := by
  have h : ('.' : Char) ≠ nulChar := by decide
  simp [parseLoop, if_neg h]

/-- A dot outside backticks closing an empty segment is a fatal violation. -/
theorem parseLoop_cons_dot_empty (rest : List Char) (acc : FieldPath) :
    parseLoop ('.' :: rest) false false [] acc = .error .emptySegment := by
  have h : ('.' : Char) ≠ nulChar := by decide
  simp [parseLoop, if_neg h]

/-- A dot outside backticks closes the current nonempty segment. -/
theorem parseLoop_cons_dot_close {seg : Segment} (hseg : seg ≠ []) (rest : List Char)
    (acc : FieldPath) :
    parseLoop ('.' :: rest) false false seg acc =
      parseLoop rest false false [] (acc ++ [seg]) := by
  have h : ('.' : Char) ≠ nulChar := by decide
  simp [parseLoop, if_neg h, if_neg hseg]

/-- A backtick toggles the inside-backticks state and is not appended. -/
theorem parseLoop_cons_backtick (rest : List Char) (ib : Bool) (seg : Segment)
    (acc : FieldPath) :
    parseLoop ('`' :: rest) ib false seg acc = parseLoop rest (!ib) false seg acc := by
  have h : ('`' : Char) ≠ nulChar := by decide
  have h1 : ('`' : Char) ≠ '.' := by decide
  simp [parseLoop, if_neg h, if_neg h1]

/-- A backslash arms the escape and appends nothing now. -/
theorem parseLoop_cons_backslash (rest : List Char) (ib : Bool) (seg : Segment)
    (acc : FieldPath) :
    parseLoop ('\\' :: rest) ib false seg acc = parseLoop rest ib true seg acc := by
  have h : ('\\' : Char) ≠ nulChar := by decide
  have h1 : ('\\' : Char) ≠ '.' := by decide
  have h2 : ('\\' : Char) ≠ '`' := by decide
  simp [parseLoop, if_neg h, if_neg h1, if_neg h2]

/-- Any other character is appended to the current segment. -/
theorem parseLoop_cons_other {c : Char} (h0 : c ≠ nulChar) (h1 : c ≠ '.')
    (h2 : c ≠ '`') (h3 : c ≠ '\\') (rest : List Char) (ib : Bool) (seg : Segment)
    (acc : FieldPath) :
    parseLoop (c :: rest) ib false seg acc = parseLoop rest ib false (seg ++ [c]) acc := by
  simp only [parseLoop, if_neg h0, if_neg h1, if_neg h2, if_neg h3]

/-- C2: the per-character semantics of the scan — split on `.` exactly when
not inside backticks (a dot inside backticks is appended literally), a
backtick toggles the inside-backticks state and is never itself appended, a
backslash makes the next character literal regardless of backtick state — and
the three documented examples. -/
theorem parser_char_semantics :
    (∀ (c : Char) (rest : List Char) (ib : Bool) (seg : Segment) (acc : FieldPath),
      c ≠ nulChar → c ≠ '.' → c ≠ '`' → c ≠ '\\' →
      parseLoop (c :: rest) ib false seg acc = parseLoop rest ib false (seg ++ [c]) acc) ∧
    (∀ (rest : List Char) (seg : Segment) (acc : FieldPath),
      parseLoop ('.' :: rest) true false seg acc =
        parseLoop rest true false (seg ++ ['.']) acc) ∧
    (∀ (rest : List Char) (seg : Segment) (acc : FieldPath), seg ≠ [] →
      parseLoop ('.' :: rest) false false seg acc =
        parseLoop rest false false [] (acc ++ [seg])) ∧
    (∀ (rest : List Char) (ib : Bool) (seg : Segment) (acc : FieldPath),
      parseLoop ('`' :: rest) ib false seg acc = parseLoop rest (!ib) false seg acc) ∧
    (∀ (rest : List Char) (ib : Bool) (seg : Segment) (acc : FieldPath),
      parseLoop ('\\' :: rest) ib false seg acc = parseLoop rest ib true seg acc) ∧
    (∀ (c : Char) (rest : List Char) (ib : Bool) (seg : Segment) (acc : FieldPath),
      c ≠ nulChar →
      parseLoop (c :: rest) ib true seg acc = parseLoop rest ib false (seg ++ [c]) acc) ∧
    ParseServerFormat ['a', '.', 'b'] = .ok [['a'], ['b']] ∧
    ParseServerFormat ['`', 'a', '.', 'b', '`'] = .ok [['a', '.', 'b']] ∧
    ParseServerFormat ['a', '\\', '.', 'b'] = .ok [['a', '.', 'b']] :=
  ⟨fun c rest ib seg acc h0 h1 h2 h3 => parseLoop_cons_other h0 h1 h2 h3 rest ib seg acc,
   fun rest seg acc => parseLoop_cons_dot_inside rest seg acc,
   fun rest seg acc hseg => parseLoop_cons_dot_close hseg rest acc,
   fun rest ib seg acc => parseLoop_cons_backtick rest ib seg acc,
   fun rest ib seg acc => parseLoop_cons_backslash rest ib seg acc,
   fun c rest ib seg acc h0 => parseLoop_cons_escaped h0 rest ib seg acc,
   rfl, rfl, rfl⟩

/-- The scan on any character list equals the scan on its prefix before the
first NUL, for every state: the first NUL ends the scan and everything after
it is ignored, taking precedence over a pending escape and backtick state. -/
theorem parseLoop_nul_truncation : ∀ (cs : List Char) (ib esc : Bool) (seg : Segment)
    (acc : FieldPath),
    parseLoop cs ib esc seg acc =
      parseLoop (cs.takeWhile (fun c => c != nulChar)) ib esc seg acc
  | [], _, _, _, _ => rfl
  | c :: rest, ib, esc, seg, acc => by
    by_cases hc : c = nulChar
    · subst hc
      have ht : (nulChar != nulChar) = false := by simp
      rw [List.takeWhile_cons, ht, parseLoop_cons_nul]
      rfl
    · have ht : (c != nulChar) = true := by simp [hc]
      rw [List.takeWhile_cons, ht]
      simp only [if_true]
      cases esc with
      | true =>
        rw [parseLoop_cons_escaped hc, parseLoop_cons_escaped hc]
        exact parseLoop_nul_truncation rest ib false (seg ++ [c]) acc
      | false =>
        by_cases h1 : c = '.'
        · subst h1
          cases ib with
          | true =>
            rw [parseLoop_cons_dot_inside, parseLoop_cons_dot_inside]
            exact parseLoop_nul_truncation rest true false (seg ++ ['.']) acc
          | false =>
            by_cases hs : seg = []
            · subst hs
              rw [parseLoop_cons_dot_empty, parseLoop_cons_dot_empty]
            · rw [parseLoop_cons_dot_close hs, parseLoop_cons_dot_close hs]
              exact parseLoop_nul_truncation rest false false [] (acc ++ [seg])
        · by_cases h2 : c = '`'
          · subst h2
            rw [parseLoop_cons_backtick, parseLoop_cons_backtick]
            exact parseLoop_nul_truncation rest (!ib) false seg acc
          · by_cases h3 : c = '\\'
            · subst h3
              rw [parseLoop_cons_backslash, parseLoop_cons_backslash]
              exact parseLoop_nul_truncation rest ib true seg acc
            · rw [parseLoop_cons_other hc h1 h2 h3, parseLoop_cons_other hc h1 h2 h3]
              exact parseLoop_nul_truncation rest ib false (seg ++ [c]) acc

/-- C5: parsing any input gives the same result as parsing its prefix before
the first NUL; in particular a NUL arriving while an escape is pending or
inside backticks still ends the scan at once, so these inputs still fail with
the corresponding end-of-scan checks. -/
theorem parse_nul_truncation :
    (∀ path : List Char, ParseServerFormat path =
      ParseServerFormat (path.takeWhile (fun c => c != nulChar))) ∧
    ParseServerFormat ['a', '\\', nulChar, 'b'] = .error .trailingEscape ∧
    ParseServerFormat ['`', 'a', nulChar, 'b', '`'] = .error .unterminatedBacktick ∧
    ParseServerFormat ['a', nulChar, '.', 'b'] = .ok [['a']] :=
  ⟨fun path => parseLoop_nul_truncation path false false [] [], rfl, rfl, rfl⟩

/-- Every successful scan only ever appends whole nonempty segments: if the
accumulated segments are nonempty, a successful result extends them with at
least one more nonempty segment. -/
theorem parseLoop_ok_invariant : ∀ (cs : List Char) (ib esc : Bool) (seg : Segment)
    (acc : FieldPath) (r : FieldPath),
    parseLoop cs ib esc seg acc = .ok r → (∀ s ∈ acc, s ≠ []) →
    (∀ s ∈ r, s ≠ []) ∧ acc.length < r.length
  | [], ib, esc, seg, acc, r => by
    intro h hacc
    simp only [parseLoop, finishScan] at h
    by_cases hs : seg = []
    · rw [if_pos hs] at h
      exact absurd h (by simp)
    · rw [if_neg hs] at h
      cases ib
      · cases esc
        · simp only [Bool.false_eq_true, if_false] at h
          have hr : acc ++ [seg] = r := by
            simpa using h
          subst hr
          constructor
          · intro s hmem
            rcases List.mem_append.mp hmem with hm | hm
            · exact hacc s hm
            · rw [List.mem_singleton.mp hm]
              exact hs
          · simp
        · simp at h
      · simp at h
  | c :: rest, ib, esc, seg, acc, r => by
    intro h hacc
    by_cases hc : c = nulChar
    · subst hc
      rw [parseLoop_cons_nul] at h
      simp only [finishScan] at h
      by_cases hs : seg = []
      · rw [if_pos hs] at h
        exact absurd h (by simp)
      · rw [if_neg hs] at h
        cases ib
        · cases esc
          · simp only [Bool.false_eq_true, if_false] at h
            have hr : acc ++ [seg] = r := by
              simpa using h
            subst hr
            constructor
            · intro s hmem
              rcases List.mem_append.mp hmem with hm | hm
              · exact hacc s hm
              · rw [List.mem_singleton.mp hm]
                exact hs
            · simp
          · simp at h
        · simp at h
    · cases esc with
      | true =>
        rw [parseLoop_cons_escaped hc] at h
        exact parseLoop_ok_invariant rest ib false (seg ++ [c]) acc r h hacc
      | false =>
        by_cases h1 : c = '.'
        · subst h1
          cases ib with
          | true =>
            rw [parseLoop_cons_dot_inside] at h
            exact parseLoop_ok_invariant rest true false (seg ++ ['.']) acc r h hacc
          | false =>
            by_cases hs : seg = []
            · subst hs
              rw [parseLoop_cons_dot_empty] at h
              exact absurd h (by simp)
            · rw [parseLoop_cons_dot_close hs] at h
              have hacc2 : ∀ s ∈ acc ++ [seg], s ≠ [] := by
                intro s hmem
                rcases List.mem_append.mp hmem with hm | hm
                · exact hacc s hm
                · rw [List.mem_singleton.mp hm]
                  exact hs
              have := parseLoop_ok_invariant rest false false [] (acc ++ [seg]) r h hacc2
              refine ⟨this.1, ?_⟩
              have h2 := this.2
              simp only [List.length_append, List.length_singleton] at h2
              omega
        · by_cases h2 : c = '`'
          · subst h2
            rw [parseLoop_cons_backtick] at h
            exact parseLoop_ok_invariant rest (!ib) false seg acc r h hacc
          · by_cases h3 : c = '\\'
            · subst h3
              rw [parseLoop_cons_backslash] at h
              exact parseLoop_ok_invariant rest ib true seg acc r h hacc
            · rw [parseLoop_cons_other hc h1 h2 h3] at h
              exact parseLoop_ok_invariant rest ib false (seg ++ [c]) acc r h hacc

/-- C10: every successfully parsed `FieldPath` has at least one segment and
only nonempty segments; the empty input, an input starting with NUL, and the
empty backtick-quoted run all fail fast — an empty segment is unparseable
even via backtick quoting. -/
theorem parser_output_invariant :
    (∀ (path : List Char) (r : FieldPath), ParseServerFormat path = .ok r →
      r ≠ [] ∧ ∀ s ∈ r, s ≠ []) ∧
    ParseServerFormat [] = .error .emptySegment ∧
    ParseServerFormat (nulChar :: ['a', 'b']) = .error .emptySegment ∧
    ParseServerFormat ['`', '`'] = .error .emptySegment := by
  refine ⟨?_, rfl, rfl, rfl⟩
  intro path r h
  have hinv := parseLoop_ok_invariant path false false [] [] r h (by simp)
  refine ⟨?_, hinv.1⟩
  intro hr
  subst hr
  have := hinv.2
  simp at this

/-- C10 witness: the invariant applied to the parse of the one-character
input `a`. -/
theorem parser_output_invariant_witness :
    ([['a']] : FieldPath) ≠ [] ∧ ∀ s ∈ ([['a']] : FieldPath), s ≠ [] :=
  parser_output_invariant.1 ['a'] [['a']] rfl

/-- Once some closed segment was empty, the first component of `specScan`
stays true. -/
theorem specScan_ever : ∀ (cs : List Char) (ib esc cur : Bool),
    (specScan cs ib esc cur true).1 = true
  | [], ib, esc, cur => by simp [specScan]
  | c :: rest, ib, esc, cur => by
    by_cases hc : c = nulChar
    · subst hc
      simp [specScan]
    · simp only [specScan, if_neg hc]
      cases esc with
      | true => exact specScan_ever rest ib false false
      | false =>
        by_cases h1 : c = '.'
        · subst h1
          simp only [if_pos rfl]
          cases ib with
          | true => exact specScan_ever rest true false false
          | false =>
            rw [show (true || cur) = true from Bool.true_or cur]
            exact specScan_ever rest false false true
        · by_cases h2 : c = '`'
          · subst h2
            simp only [if_neg h1, if_pos rfl]
            exact specScan_ever rest (!ib) false cur
          · by_cases h3 : c = '\\'
            · subst h3
              simp only [if_neg h1, if_neg h2, if_pos rfl]
              exact specScan_ever rest ib true cur
            · simp only [if_neg h1, if_neg h2, if_neg h3]
              exact specScan_ever rest ib false false

/-- The scan succeeds exactly when no segment was empty at close, and the
scan ends outside backticks with no pending escape — the abstraction of the
parser onto the spec-language conditions. -/
theorem parseLoop_ok_iff_specScan : ∀ (cs : List Char) (ib esc : Bool) (seg : Segment)
    (acc : FieldPath),
    (∃ r, parseLoop cs ib esc seg acc = .ok r) ↔
      specScan cs ib esc seg.isEmpty false = (false, false, false)
  | [], ib, esc, seg, acc => by
    simp only [parseLoop, finishScan, specScan, Bool.false_or]
    by_cases hs : seg = []
    · rw [if_pos hs]
      simp [hs]
    · rw [if_neg hs]
      have he : seg.isEmpty = false := by simp [hs]
      rw [he]
      cases ib
      · cases esc
        · simp
        · simp
      · simp
  | c :: rest, ib, esc, seg, acc => by
    by_cases hc : c = nulChar
    · subst hc
      rw [parseLoop_cons_nul]
      simp only [finishScan, specScan, if_pos rfl, Bool.false_or]
      by_cases hs : seg = []
      · rw [if_pos hs]
        simp [hs]
      · rw [if_neg hs]
        have he : seg.isEmpty = false := by simp [hs]
        rw [he]
        cases ib
        · cases esc
          · simp
          · simp
        · simp
    · simp only [specScan, if_neg hc]
      cases esc with
      | true =>
        rw [parseLoop_cons_escaped hc]
        have := parseLoop_ok_iff_specScan rest ib false (seg ++ [c]) acc
        rwa [show (seg ++ [c]).isEmpty = false by simp] at this
      | false =>
        by_cases h1 : c = '.'
        · subst h1
          simp only [if_pos rfl]
          cases ib with
          | true =>
            rw [parseLoop_cons_dot_inside]
            have := parseLoop_ok_iff_specScan rest true false (seg ++ ['.']) acc
            rwa [show (seg ++ ['.']).isEmpty = false by simp] at this
          | false =>
            by_cases hs : seg = []
            · subst hs
              rw [parseLoop_cons_dot_empty]
              show (∃ r, (Except.error ParseErr.emptySegment : Except ParseErr FieldPath) =
                  Except.ok r) ↔
                specScan rest false false true true = (false, false, false)
              constructor
              · rintro ⟨r, hr⟩
                simp at hr
              · intro hspec
                have hv := specScan_ever rest false false true
                rw [hspec] at hv
                simp at hv
            · rw [parseLoop_cons_dot_close hs]
              have he : seg.isEmpty = false := by simp [hs]
              rw [he, Bool.false_or]
              exact parseLoop_ok_iff_specScan rest false false [] (acc ++ [seg])
        · by_cases h2 : c = '`'
          · subst h2
            simp only [if_neg h1, if_pos rfl]
            rw [parseLoop_cons_backtick]
            exact parseLoop_ok_iff_specScan rest (!ib) false seg acc
          · by_cases h3 : c = '\\'
            · subst h3
              simp only [if_neg h1, if_neg h2, if_pos rfl]
              rw [parseLoop_cons_backslash]
              exact parseLoop_ok_iff_specScan rest ib true seg acc
            · simp only [if_neg h1, if_neg h2, if_neg h3]
              rw [parseLoop_cons_other hc h1 h2 h3]
              have := parseLoop_ok_iff_specScan rest ib false (seg ++ [c]) acc
              rwa [show (seg ++ [c]).isEmpty = false by simp] at this

/-- C4: parsing fails — a fatal precondition violation with no partial
result, the `Except` never carries one — exactly when a segment was empty at
the moment it was closed (leading dot, trailing dot, doubled dot, ...), or
the scan ends still inside backticks, or with a pending escape; on every
other input a complete segment list is returned. -/
theorem parser_failure_semantics :
    (∀ path : List Char,
      (∃ e, ParseServerFormat path = .error e) ↔
        ((specScan path false false true false).1 = true ∨
         (specScan path false false true false).2.1 = true ∨
         (specScan path false false true false).2.2 = true)) ∧
    ParseServerFormat ['.', 'a'] = .error .emptySegment ∧
    ParseServerFormat ['a', '.'] = .error .emptySegment ∧
    ParseServerFormat ['a', '.', '.', 'b'] = .error .emptySegment ∧
    ParseServerFormat ['`', 'a'] = .error .unterminatedBacktick ∧
    ParseServerFormat ['a', '\\'] = .error .trailingEscape := by
  refine ⟨?_, rfl, rfl, rfl, rfl, rfl⟩
  intro path
  have hiff := parseLoop_ok_iff_specScan path false false [] []
  rw [show (([] : Segment).isEmpty) = true from rfl] at hiff
  constructor
  · rintro ⟨e, he⟩
    by_contra hcon
    push_neg at hcon
    obtain ⟨h1, h2, h3⟩ := hcon
    simp only [Bool.not_eq_true] at h1 h2 h3
    have htriple : specScan path false false true false = (false, false, false) := by
      rcases hsp : specScan path false false true false with ⟨x, y, z⟩
      rw [hsp] at h1 h2 h3
      simp only at h1 h2 h3
      rw [h1, h2, h3]
    obtain ⟨r, hr⟩ := hiff.mpr htriple
    simp only [ParseServerFormat] at he
    rw [he] at hr
    simp at hr
  · intro hdisj
    cases hp : ParseServerFormat path with
    | error e => exact ⟨e, rfl⟩
    | ok r =>
      have htriple := hiff.mp ⟨r, hp⟩
      rw [htriple] at hdisj
      simp at hdisj

/-- C4 witness: the characterization applied to the input consisting of a
single dot, whose scan closes an empty segment. -/
theorem parser_failure_semantics_witness :
    ∃ e, ParseServerFormat ['.'] = .error e :=
  (parser_failure_semantics.1 ['.']).mpr (Or.inl rfl)

/-- Identifier characters are none of the parser's special characters. -/
theorem identChar_not_special {c : Char} (h : (c == '_' || c.isAlphanum) = true) :
    c ≠ nulChar ∧ c ≠ '.' ∧ c ≠ '`' ∧ c ≠ '\\' := by
  refine ⟨?_, ?_, ?_, ?_⟩ <;> intro he <;> subst he <;> exact absurd h (by decide)

/-- Every character of a valid identifier is an identifier character. -/
theorem validIdent_chars {s : Segment} (h : IsValidIdentifier s = true) :
    ∀ c ∈ s, (c == '_' || c.isAlphanum) = true := by
  match s, h with
  | c :: cs, h =>
    simp only [IsValidIdentifier, Bool.and_eq_true, List.all_eq_true] at h
    exact h.2

/-- The substitution is the identity on a segment without backslash or
backtick. -/
theorem escBody_id {s : Segment} (h : ∀ c ∈ s, c ≠ '\\' ∧ c ≠ '`') :
    escBody s = s := by
  induction s with
  | nil => rfl
  | cons c cs ih =>
    have hc := h c (by simp)
    simp only [escBody, escBlock, if_neg hc.1, if_neg hc.2]
    rw [ih (fun d hd => h d (by simp [hd]))]
    rfl

/-- If the substituted text contains no backslash, the original segment had
no backslash and no backtick. -/
theorem escBody_no_backslash {s : Segment} (h : '\\' ∉ escBody s) :
    ∀ c ∈ s, c ≠ '\\' ∧ c ≠ '`' := by
  induction s with
  | nil =>
    intro c hc
    simp at hc
  | cons c cs ih =>
    have hsplit : '\\' ∉ escBlock c ∧ '\\' ∉ escBody cs := by
      rw [show escBody (c :: cs) = escBlock c ++ escBody cs from rfl] at h
      constructor <;> intro hm
      · exact h (List.mem_append.mpr (Or.inl hm))
      · exact h (List.mem_append.mpr (Or.inr hm))
    intro d hd
    rcases List.mem_cons.mp hd with hdc | hdc
    · subst hdc
      constructor <;> intro he <;> subst he <;> apply hsplit.1 <;> simp [escBlock]
    · exact ih hsplit.2 d hdc

/-- If the substituted text is a valid identifier, the substitution did
nothing. -/
theorem escBody_of_validIdent {s : Segment} (h : IsValidIdentifier (escBody s) = true) :
    escBody s = s := by
  apply escBody_id
  apply escBody_no_backslash
  intro hmem
  exact absurd (validIdent_chars h '\\' hmem) (by decide)

/-- Consuming a run of ordinary characters appends them to the current
segment, in any backtick state. -/
theorem parseLoop_append_plain : ∀ (s rest : List Char) (ib : Bool) (seg : Segment)
    (acc : FieldPath),
    (∀ c ∈ s, c ≠ nulChar ∧ c ≠ '.' ∧ c ≠ '`' ∧ c ≠ '\\') →
    parseLoop (s ++ rest) ib false seg acc = parseLoop rest ib false (seg ++ s) acc
  | [], rest, ib, seg, acc, _ => by simp
  | c :: cs, rest, ib, seg, acc, h => by
    have hc := h c (by simp)
    show parseLoop (c :: (cs ++ rest)) ib false seg acc = _
    rw [parseLoop_cons_other hc.1 hc.2.1 hc.2.2.1 hc.2.2.2,
      parseLoop_append_plain cs rest ib (seg ++ [c]) acc (fun d hd => h d (by simp [hd]))]
    have hsg : (seg ++ [c]) ++ cs = seg ++ (c :: cs) := by simp
    rw [hsg]

/-- Consuming the substituted text of a NUL-free segment inside backticks
appends exactly the original characters. -/
theorem parseLoop_append_quoted : ∀ (s rest : List Char) (seg : Segment)
    (acc : FieldPath), nulChar ∉ s →
    parseLoop (escBody s ++ rest) true false seg acc =
      parseLoop rest true false (seg ++ s) acc
  | [], rest, seg, acc, _ => by simp [escBody]
  | c :: cs, rest, seg, acc, h => by
    have hc : c ≠ nulChar := fun he => h (he ▸ List.mem_cons_self c cs)
    have hcs : nulChar ∉ cs := fun hm => h (List.mem_cons_of_mem c hm)
    by_cases h1 : c = '\\'
    · subst h1
      show parseLoop ('\\' :: '\\' :: (escBody cs ++ rest)) true false seg acc = _
      rw [parseLoop_cons_backslash, parseLoop_cons_escaped (by decide),
        parseLoop_append_quoted cs rest (seg ++ ['\\']) acc hcs]
      have hsg : (seg ++ ['\\']) ++ cs = seg ++ ('\\' :: cs) := by simp
      rw [hsg]
    · by_cases h2 : c = '`'
      · subst h2
        show parseLoop ('\\' :: '`' :: (escBody cs ++ rest)) true false seg acc = _
        rw [parseLoop_cons_backslash, parseLoop_cons_escaped (by decide),
          parseLoop_append_quoted cs rest (seg ++ ['`']) acc hcs]
        have hsg : (seg ++ ['`']) ++ cs = seg ++ ('`' :: cs) := by simp
        rw [hsg]
      · have hb : escBody (c :: cs) = c :: escBody cs := by
          simp [escBody, escBlock, h1, h2]
        rw [hb, List.cons_append]
        by_cases h3 : c = '.'
        · subst h3
          rw [parseLoop_cons_dot_inside,
            parseLoop_append_quoted cs rest (seg ++ ['.']) acc hcs]
          have hsg : (seg ++ ['.']) ++ cs = seg ++ ('.' :: cs) := by simp
          rw [hsg]
        · rw [parseLoop_cons_other hc h3 h2 h1,
            parseLoop_append_quoted cs rest (seg ++ [c]) acc hcs]
          have hsg : (seg ++ [c]) ++ cs = seg ++ (c :: cs) := by simp
          rw [hsg]

/-- Consuming one escaped canonical segment from a fresh segment state loads
exactly the original segment. -/
theorem parseLoop_escapedSegment {s : Segment} (hne : s ≠ []) (hnul : nulChar ∉ s)
    (rest : List Char) (acc : FieldPath) :
    parseLoop (EscapedSegment s ++ rest) false false [] acc =
      parseLoop rest false false s acc := by
  have hesc : EscapedSegment s =
      (if IsValidIdentifier (escBody s) then escBody s
       else '`' :: (escBody s ++ ['`'])) := by
    simp only [EscapedSegment, strReplaceAllChar_eq_escBody]
  by_cases hv : IsValidIdentifier (escBody s) = true
  · rw [hesc, if_pos hv]
    have hid : escBody s = s := escBody_of_validIdent hv
    rw [hid]
    have hchars : ∀ c ∈ s, c ≠ nulChar ∧ c ≠ '.' ∧ c ≠ '`' ∧ c ≠ '\\' := by
      intro c hcm
      exact identChar_not_special (validIdent_chars hv c (by rw [hid]; exact hcm))
    rw [parseLoop_append_plain s rest false [] acc hchars]
    rfl
  · rw [hesc, if_neg hv]
    have hassoc : ('`' :: (escBody s ++ ['`'])) ++ rest =
        '`' :: (escBody s ++ ('`' :: rest)) := by
      simp
    rw [hassoc, parseLoop_cons_backtick]
    simp only [Bool.not_false]
    rw [parseLoop_append_quoted s ('`' :: rest) [] acc hnul]
    simp only [List.nil_append]
    rw [parseLoop_cons_backtick]
    simp only [Bool.not_true]

/-- Joining a single chunk is that chunk. -/
theorem intercalate_singleton (sep x : List Char) :
    List.intercalate sep [x] = x := by
  simp [List.intercalate]

/-- Joining peels one chunk and one separator at a time. -/
theorem intercalate_cons_cons (sep x y : List Char) (l : List (List Char)) :
    List.intercalate sep (x :: y :: l) = x ++ sep ++ List.intercalate sep (y :: l) := by
  simp [List.intercalate, List.intersperse]

/-- Scanning the canonical string of a nonempty segment list from the initial
state appends exactly those segments. -/
theorem parseLoop_canonical : ∀ (ss : List Segment) (s : Segment) (acc : FieldPath),
    s ≠ [] → nulChar ∉ s → (∀ t ∈ ss, t ≠ [] ∧ nulChar ∉ t) →
    parseLoop (List.intercalate ['.'] ((s :: ss).map EscapedSegment)) false false [] acc =
      .ok (acc ++ s :: ss)
  | [], s, acc, hs, hn, _ => by
    have hm : List.map EscapedSegment [s] = [EscapedSegment s] := rfl
    rw [hm, intercalate_singleton]
    have hone := parseLoop_escapedSegment hs hn [] acc
    rw [List.append_nil] at hone
    rw [hone]
    simp [parseLoop, finishScan, hs]
  | t :: ts, s, acc, hs, hn, hts => by
    have hm : (s :: t :: ts).map EscapedSegment =
        EscapedSegment s :: EscapedSegment t :: ts.map EscapedSegment := rfl
    rw [hm, intercalate_cons_cons, List.append_assoc]
    simp only [List.singleton_append]
    rw [parseLoop_escapedSegment hs hn _ acc, parseLoop_cons_dot_close hs]
    have h1 := hts t (by simp)
    have hts2 : ∀ u ∈ ts, u ≠ [] ∧ nulChar ∉ u := fun u hu => hts u (by simp [hu])
    have hIH := parseLoop_canonical ts t (acc ++ [s]) h1.1 h1.2 hts2
    rw [show (t :: ts).map EscapedSegment = EscapedSegment t :: ts.map EscapedSegment
      from rfl] at hIH
    rw [hIH]
    simp

/-- C1 (amended): for every `FieldPath` with at least one segment, all
segments nonempty and NUL-free, parsing the canonical string reproduces
exactly the original segment list. -/
theorem canonical_round_trip (fp : FieldPath) (hne : fp ≠ [])
    (hseg : ∀ s ∈ fp, s ≠ [] ∧ nulChar ∉ s) :
    ParseServerFormat (CanonicalString fp) = .ok fp := by
  match fp, hne with
  | s :: ss, _ =>
    have h1 := hseg s (by simp)
    have hts : ∀ t ∈ ss, t ≠ [] ∧ nulChar ∉ t := fun t ht => hseg t (by simp [ht])
    have hmain := parseLoop_canonical ss s [] h1.1 h1.2 hts
    simpa [ParseServerFormat, CanonicalString] using hmain

/-- C1 counterexample: the zero-segment `FieldPath` vacuously has only
nonempty NUL-free segments, yet its canonical string (the empty string) fails
to parse, so the round trip does not hold for it. -/
theorem canonical_round_trip_counterexample :
    (∀ s ∈ ([] : FieldPath), s ≠ [] ∧ nulChar ∉ s) ∧
    ParseServerFormat (CanonicalString ([] : FieldPath)) = .error .emptySegment ∧
    ParseServerFormat (CanonicalString ([] : FieldPath)) ≠ .ok ([] : FieldPath) := by
  refine ⟨by simp, rfl, ?_⟩
  intro h
  rw [show ParseServerFormat (CanonicalString ([] : FieldPath)) =
    .error .emptySegment from rfl] at h
  exact Except.noConfusion h

/-- C1 witness: the round trip applied to the two-segment path `a`, `a.b`
(the second segment needs backtick quoting). -/
theorem canonical_round_trip_witness :
    ParseServerFormat (CanonicalString [['a'], ['a', '.', 'b']]) =
      .ok [['a'], ['a', '.', 'b']] :=
  canonical_round_trip [['a'], ['a', '.', 'b']] (by decide) (by decide)

/-- C2 witness: the plain-character rule applied to `x` from the initial
state. -/
theorem parser_char_semantics_witness :
    parseLoop ['x'] false false [] [] = parseLoop [] false false ([] ++ ['x']) [] :=
  parser_char_semantics.1 'x' [] false [] [] (by decide) (by decide) (by decide) (by decide)

end Firestore

-- Sanity checks of the embedding on the source's documented examples.
example : Firestore.ParseServerFormat ['a', '.', 'b'] =
    .ok [['a'], ['b']] := rfl
example : Firestore.ParseServerFormat ['`', 'a', '.', 'b', '`'] =
    .ok [['a', '.', 'b']] := rfl
example : Firestore.ParseServerFormat ['a', '\\', '.', 'b'] =
    .ok [['a', '.', 'b']] := rfl
example : Firestore.ParseServerFormat ['a', '.'] =
    .error Firestore.ParseErr.emptySegment := rfl
example : Firestore.ParseServerFormat ['`', 'a'] =
    .error Firestore.ParseErr.unterminatedBacktick := rfl
example : Firestore.ParseServerFormat ['a', '\\'] =
    .error Firestore.ParseErr.trailingEscape := rfl
example : Firestore.CanonicalString [['a'], ['a', '.', 'b']] =
    ['a', '.', '`', 'a', '.', 'b', '`'] := by decide
example : Firestore.EscapedSegment ['a', '`', 'b'] =
    ['`', 'a', '\\', '`', 'b', '`'] := by decide
example : Firestore.EscapedSegment ['a', '\\'] =
    ['`', 'a', '\\', '\\', '`'] := by decide
